import Mathlib

/-!
Verification of the wordanalyzer segmentation-and-correction engine.

This file gives a shallow embedding of the core of the repository:

* `TextSplitter.__init__` (cost-model construction) and `TextSplitter.split`
  (Viterbi-style dynamic programming) from `analyzer/lib/text_splitter.py`;
* `WordAnalyzer._get_correct_words` from `analyzer/lib/word_analyzer.py`,
  parametrised over its collaborators (cleaner, repeated-part detector,
  splitter, approximate index, total-cost evaluator).

Costs in the Python code are floats; the embedding treats them as exact
values in a linearly ordered additive commutative monoid `α` (with `⊤`
playing the role of the `9e999` infinite sentinel), which covers both the
real-valued log-costs of the actual cost model and small decidable carriers
used for concrete evaluations.  Strings are embedded as `List Char` where
character-level slicing matters and as `String` elsewhere.
-/

namespace WASpec

/-! ### The splitter: `analyzer/lib/text_splitter.py`

`TextSplitter` stores `word_cost` (a dict from word to float cost) and
`max_len` (the length of the longest dictionary word).  The embedding keeps
exactly these two fields; `wordCost` returns `none` where the Python dict
has no entry.
-/

structure Splitter (α : Type) where
  wordCost : List Char → Option α
  maxLen : ℕ

variable {α : Type} [LinearOrderedAddCommMonoid α]

/-- Cost of one candidate token: `self.word_cost.get(token.lower(), 9e999)`.
The token is lower-cased before lookup; a missing entry costs the infinite
sentinel, embedded as `⊤`. -/
def tokenCost (S : Splitter α) (tok : List Char) : WithTop α :=
  match S.wordCost (tok.map Char.toLower) with
  | some c => (c : WithTop α)
  | none => ⊤

/-- Strict comparison of `(match_cost, match_length)` pairs as Python
compares tuples: first component first, second component on equality. -/
def lexLt (a b : WithTop α × ℕ) : Prop :=
  a.1 < b.1 ∨ (a.1 = b.1 ∧ a.2 < b.2)

instance lexLt.instDecidable (a b : WithTop α × ℕ) : Decidable (lexLt a b) := by
  unfold lexLt
  exact inferInstance

/-- Python `min` over a list of `(cost, length)` tuples: scan left to right,
replacing the current best exactly when the new tuple is strictly smaller.
Python raises `ValueError` on an empty sequence; the `[]` case below is a
junk value that is unreachable whenever `1 ≤ maxLen` (the only way the
candidate list of `best_match` can be empty). -/
def pyMin : List (WithTop α × ℕ) → WithTop α × ℕ
  | [] => (⊤, 0)
  | x :: xs => xs.foldl (fun best c => if lexLt c best then c else best) x

/-- The candidate list of `best_match(index)`:
`enumerate(reversed(cost[max(0, index - self.max_len):index]))` enumerated as
pairs `(match_length, match_cost)`, mapped to
`(match_cost + word_cost.get(text[index - match_length - 1:index].lower(), inf),
match_length + 1)`.

`revCosts` is the reversed cost prefix `[cost (i-1), ..., cost 0]`, so the
element of the reversed slice at position `ml` is `revCosts[ml]`, and the
slice has length `min revCosts.length maxLen`.  The `getD` default is
unreachable for `ml < revCosts.length`. -/
def candList (S : Splitter α) (text : List Char) (revCosts : List (WithTop α))
    (i : ℕ) : List (WithTop α × ℕ) :=
  (List.range (min revCosts.length S.maxLen)).map fun ml =>
    (revCosts.getD ml ⊤ + tokenCost S ((text.drop (i - ml - 1)).take (ml + 1)),
      ml + 1)

/-- The forward DP pass: `cost = [0]; for i in range(1, len(text)+1):
cost.append(best_match(i)[0])`.  `costs S text i` is the reversed cost
array after step `i`: `[cost i, cost (i-1), ..., cost 0]`. -/
def costs (S : Splitter α) (text : List Char) : ℕ → List (WithTop α)
  | 0 => [0]
  | i + 1 =>
    (pyMin (candList S text (costs S text i) (i + 1))).1 :: costs S text i

/-- The DP value `cost[i]`: minimal cost of segmenting the first `i`
characters. -/
def costF (S : Splitter α) (text : List Char) (i : ℕ) : WithTop α :=
  (costs S text i).headD ⊤

/-- `best_match(i)` as called during backtracking: the reversed slice
`cost[max(0, i - max_len):i]` contains the entries `cost (i-1), ..., cost 0`
truncated to `max_len`, which is `costs S text (i-1)` truncated to
`max_len`. -/
def bestMatch (S : Splitter α) (text : List Char) (i : ℕ) : WithTop α × ℕ :=
  pyMin (candList S text (costs S text (i - 1)) i)

/-- The backtracking loop of `split`:
`while i > 0: c, k = best_match(i); out.append(text[i-k:i]); i -= k`.
The loop is fuelled: Python would loop forever (or raise on `min([])`) if a
match length of `0` were ever produced, which cannot happen when
`1 ≤ maxLen`; `text.length` fuel then always suffices. -/
def backtrack (S : Splitter α) (text : List Char) : ℕ → ℕ → List (List Char)
  | _, 0 => []
  | 0, _ + 1 => []
  | fuel + 1, i + 1 =>
    let m := bestMatch S text (i + 1)
    ((text.drop (i + 1 - m.2)).take m.2) :: backtrack S text fuel (i + 1 - m.2)

/-- `TextSplitter.split`: run the forward pass, backtrack from
`i = len(text)`, and reverse the accumulated tokens. -/
def split (S : Splitter α) (text : List Char) : List (List Char) :=
  (backtrack S text text.length text.length).reverse

/-- Total cost of a token sequence under the splitter's per-token cost (the
quantity the DP minimises). -/
def totalCost (S : Splitter α) (toks : List (List Char)) : WithTop α :=
  (toks.map (tokenCost S)).sum

/-- A partition of `text` into consecutive non-empty substrings. -/
def IsPartition (toks : List (List Char)) (text : List Char) : Prop :=
  (∀ t ∈ toks, t ≠ []) ∧ toks.flatten = text

/-! ### Cost-model construction: `TextSplitter.__init__`

The constructor receives an arbitrary Python object that is expected to be
a list; the claims only involve `None`, lists of strings and lists with a
non-string element, so elements are embedded as `PyObj` and the `words`
argument as `Option (List PyObj)` (`none` = Python `None`).
-/

/-- A Python value as far as the constructor's element-type check can tell:
a string or some non-string value. -/
inductive PyObj where
  | str : String → PyObj
  | int : Int → PyObj
deriving DecidableEq

/-- The errors `TextSplitter.__init__` can raise: `ValueError` on an empty
or `None` list, `TypeError` on a non-string element, and the
`ValueError: math domain error` raised by `math.log` on a non-positive
argument while building the cost dict. -/
inductive InitError where
  | emptyOrNone : InitError
  | nonString : InitError
  | mathDomain : InitError
deriving DecidableEq

/-- Python `isinstance(word, str)` as a partial projection. -/
def asString : PyObj → Option String
  | .str s => some s
  | _ => none

/-- The validation and cost-dict construction in `TextSplitter.__init__`.

Python performs, in order: `if words == [] or words is None: raise
ValueError`; `if not all(isinstance(word, str) for word in words): raise
TypeError`; then builds `word_cost = dict((word, log((number + 1) *
log(len(words)))) ...)` and `max_len = max(len(x) for x in words)`.

`math.log(len(words))` is `0` when `len(words) == 1`, so the inner
`log((number + 1) * 0) = log 0` raises `ValueError: math domain error` for
every single-element list; for `len(words) ≥ 2` every argument is positive
and no error occurs.  On success the model returns the validated word list
together with `max_len`. -/
def initTextSplitter (words : Option (List PyObj)) :
    Except InitError (List String × ℕ) :=
  match words with
  | none => .error .emptyOrNone
  | some ws =>
    if ws = [] then .error .emptyOrNone
    else if ws.any fun w => asString w = none then .error .nonString
    else if ws.length = 1 then .error .mathDomain
    else
      let strs := ws.filterMap asString
      .ok (strs, (strs.map String.length).foldl max 0)

/-- The rank a word ends up with in the `word_cost` dict: Python dict
comprehension over `enumerate(words)` lets a later occurrence of the same
word overwrite an earlier one, so the stored rank is the LAST index at
which the word occurs.  `k` is the index of the head of the remaining
list. -/
def dictRankAux (w : String) : List String → ℕ → Option ℕ
  | [], _ => none
  | x :: xs, k =>
    match dictRankAux w xs (k + 1) with
    | some r => some r
    | none => if x = w then some k else none

/-- Final rank of `w` in the cost dict built from `ws` (`none` if absent). -/
def dictRank (ws : List String) (w : String) : Option ℕ :=
  dictRankAux w ws 0

/-- The Zipf-style cost `log((i + 1) * log N)` assigned to the word of rank
`i` in a frequency list of length `N` (real-valued, as the float code
computes). -/
noncomputable def zipfCost (N i : ℕ) : ℝ :=
  Real.log (((i : ℝ) + 1) * Real.log (N : ℝ))

/-- The stored `word_cost` mapping: the cost of a word is the Zipf cost of
its final (dict-overwrite) rank. -/
noncomputable def word_cost (ws : List String) (w : String) : Option ℝ :=
  (dictRank ws w).map (zipfCost ws.length)

/-! ### The correction engine: `WordAnalyzer._get_correct_words`
(`analyzer/lib/word_analyzer.py`)

The method uses five collaborators — `_get_clear_word`,
`_detect_repeated_word`, `splitter.split`, `_get_similar_words`,
`_get_total_cost` — plus the configuration values `threshold` and
`number_of_corrected_words`.  The embedding abstracts the collaborators as
fields of `Analyzer`, since the claims quantify over their behaviour:
`getSimilarWords` returns `none` where Python returns `None`, and total
costs are embedded as exact rationals. -/

structure Analyzer where
  getClearWord : String → String
  detectRepeatedWord : String → Option String
  splitWord : String → List String
  getSimilarWords : String → Option (List String)
  getTotalCost : String → ℚ
  threshold : ℕ
  numberOfCorrectedWords : ℕ

/-- Python list comparison on `[cost, word]` candidates, as the
less-or-equal used by the stable sort: compare costs first, then words. -/
def candidateLe (a b : ℚ × String) : Prop :=
  a.1 < b.1 ∨ (a.1 = b.1 ∧ ¬ b.2 < a.2)

instance candidateLe.instDecidable (a b : ℚ × String) :
    Decidable (candidateLe a b) := by
  unfold candidateLe
  exact inferInstance

/-- Python `sorted` on candidate `[cost, word]` pairs: a stable ascending
sort under the lexicographic comparison. -/
def pySort (l : List (ℚ × String)) : List (ℚ × String) :=
  l.insertionSort candidateLe

/-- The loop `for part in parts: similar = self._get_similar_words(part);
if similar: arr.extend(similar)` of the `len(parts) < 2` branch.  (Its
result is subsequently discarded by the code — see `getCorrectWords`.) -/
def collectedSimilar (A : Analyzer) (parts : List String) : List String :=
  parts.foldl
    (fun acc part =>
      match A.getSimilarWords part with
      | some similar => if similar = [] then acc else acc ++ similar
      | none => acc)
    []

/-- The inner helper `replace_correcting_parts(parts, similar_words,
(i, j))`: for each similar word build
`''.join(parts[:i] + [similar_word] + parts[j+1:])` and pair it with its
total cost. -/
def replaceCorrectingParts (A : Analyzer) (parts : List String)
    (similarWords : List String) (i j : ℕ) : List (ℚ × String) :=
  similarWords.map fun s =>
    let fullWord :=
      String.join (parts.take i) ++ s ++ String.join (parts.drop (j + 1))
    (A.getTotalCost fullWord, fullWord)

/-- The double loop that fills `evaluated_words` in the `len(parts) ≥ 2`
branch: for `i in range(len(parts))`,
`max_range = threshold if threshold <= len(parts) - i else len(parts) - i`;
for `j in range(i + 2, max_range + i + 1)`, probe the spliced parts
`''.join(parts[i:j])`, and when similar words are found extend the list
with `replace_correcting_parts(parts, similar_words, (i, j - 1))`. -/
def evaluatedWordsFor (A : Analyzer) (parts : List String) :
    List (ℚ × String) :=
  (List.range parts.length).foldl
    (fun acc i =>
      let maxRange :=
        if A.threshold ≤ parts.length - i then A.threshold
        else parts.length - i
      (List.range' (i + 2) (maxRange + i + 1 - (i + 2))).foldl
        (fun acc2 j =>
          let splicedWord := String.join ((parts.drop i).take (j - i))
          match A.getSimilarWords splicedWord with
          | some similar =>
            if similar = [] then acc2
            else acc2 ++ replaceCorrectingParts A parts similar i (j - 1)
          | none => acc2)
        acc)
    []

/-- The word the method actually corrects:
`word = clear_word if clear_word else self._get_clear_word(word)` (Python
truthiness: `None` and `""` both fall back to `_get_clear_word`), followed
by `repeated_word = self._detect_repeated_word(word); if repeated_word:
word = repeated_word` (again, `None` and `""` leave `word` unchanged). -/
def cleanedWord (A : Analyzer) (word : String) (clearWord : Option String) :
    String :=
  let w :=
    match clearWord with
    | some c => if c = "" then A.getClearWord word else c
    | none => A.getClearWord word
  match A.detectRepeatedWord w with
  | some r => if r = "" then w else r
  | none => w

/-- `WordAnalyzer._get_correct_words(word, clear_word)`.

After cleaning and repeat-collapsing, the word is split into `parts`.

If `len(parts) < 2`: the loop collects similar words for each part into
`arr`, but the next statement `arr = sorted(evaluated_words)
[:number_of_corrected_words]` rebinds `arr` while `evaluated_words` is
still the empty list, discarding everything collected; then
`if word: arr.append(word)` and `return set(arr)`.  Hence the returned set
is `{word}` when the cleaned word is non-empty and `∅` otherwise (the
sorted pair list is provably empty, so `set(arr)` holds at most the bare
string `word`).

Otherwise: `arr = sorted(evaluated_words)[:number_of_corrected_words]`;
`if word: arr.append([0, word])`; `return set(it[1] for it in arr)`. -/
def getCorrectWords (A : Analyzer) (word : String)
    (clearWord : Option String) : Finset String :=
  let w := cleanedWord A word clearWord
  let parts := A.splitWord w
  let evaluatedWords : List (ℚ × String) := []
  if parts.length < 2 then
    let arrSimilar := collectedSimilar A parts
    let arr := (pySort evaluatedWords).take A.numberOfCorrectedWords
    let _ := arrSimilar
    let res : List String := arr.map Prod.snd ++ if w = "" then [] else [w]
    res.toFinset
  else
    let evaluatedWords := evaluatedWordsFor A parts
    let arr := (pySort evaluatedWords).take A.numberOfCorrectedWords
    let arr := if w = "" then arr else arr ++ [(0, w)]
    (arr.map Prod.snd).toFinset

/-! ### Concrete instances used for witnesses and counterexamples -/

/-- A small cost model over `ℕ`: `"a" ↦ 1`, `"b" ↦ 1`, `"ab" ↦ 2`,
`maxLen = 2`.  Both segmentations of `"ab"` cost `2`, exposing the
tie-breaking behaviour of `best_match`. -/
def tieSplitter : Splitter ℕ where
  wordCost := fun t =>
    if t = ['a'] then some 1
    else if t = ['b'] then some 1
    else if t = ['a', 'b'] then some 2
    else none
  maxLen := 2

/-- An analyzer whose splitter leaves `"hello"` in one part and whose
approximate index knows similar words for it: the configuration under which
the `len(parts) < 2` branch of `_get_correct_words` should surface
`"help"`. -/
def bugAnalyzer : Analyzer where
  getClearWord := fun w => w
  detectRepeatedWord := fun _ => none
  splitWord := fun w => [w]
  getSimilarWords := fun p =>
    if p = "hello" then some ["hello", "help"] else none
  getTotalCost := fun _ => 0
  threshold := 2
  numberOfCorrectedWords := 4

/-- An analyzer whose cleaner maps every word to the empty string (as
`_get_clear_word` does on input `""`), so the cleaned word is falsy and the
`if word:` fallback append is skipped. -/
def emptyClearAnalyzer : Analyzer where
  getClearWord := fun _ => ""
  detectRepeatedWord := fun _ => none
  splitWord := fun _ => []
  getSimilarWords := fun _ => none
  getTotalCost := fun _ => 0
  threshold := 2
  numberOfCorrectedWords := 4

end WASpec

/-! ## Helper lemmas -/

namespace WASpec

variable {α : Type} [LinearOrderedAddCommMonoid α]

lemma lexLt_irrefl (a : WithTop α × ℕ) : ¬ lexLt a a := by
  simp [lexLt]

lemma not_lexLt_iff {a b : WithTop α × ℕ} :
    ¬ lexLt a b ↔ b.1 < a.1 ∨ (b.1 = a.1 ∧ b.2 ≤ a.2) := by
  unfold lexLt
  constructor
  · intro h
    by_cases hlt : b.1 < a.1
    · exact Or.inl hlt
    · have h1 : ¬ a.1 < b.1 := fun hc => h (Or.inl hc)
      have heq : b.1 = a.1 := le_antisymm (le_of_not_lt h1) (le_of_not_lt hlt)
      refine Or.inr ⟨heq, ?_⟩
      by_contra h2
      exact h (Or.inr ⟨heq.symm, not_le.mp h2⟩)
  · rintro (hlt | ⟨heq, hle⟩) (h1 | ⟨h2, h3⟩)
    · exact absurd hlt (lt_asymm h1)
    · exact absurd hlt (h2 ▸ lt_irrefl _)
    · exact absurd h1 (heq ▸ lt_irrefl _)
    · exact absurd h3 (not_lt_of_le hle)

lemma not_lexLt_trans {a b c : WithTop α × ℕ} (hba : ¬ lexLt b a)
    (hcb : ¬ lexLt c b) : ¬ lexLt c a := by
  rw [not_lexLt_iff] at hba hcb ⊢
  rcases hba with h1 | ⟨h1, h2⟩ <;> rcases hcb with h3 | ⟨h3, h4⟩
  · exact Or.inl (lt_trans h1 h3)
  · exact Or.inl (h3 ▸ h1)
  · exact Or.inl (h1 ▸ h3)
  · exact Or.inr ⟨h1.trans h3, le_trans h2 h4⟩

/-- The fold inside `pyMin` returns the seed or one of the list elements. -/
lemma foldlMin_mem (xs : List (WithTop α × ℕ)) :
    ∀ b, xs.foldl (fun best c => if lexLt c best then c else best) b ∈
      b :: xs := by
  induction xs with
  | nil => intro b; simp
  | cons x xs ih =>
    intro b
    have h := ih (if lexLt x b then x else b)
    simp only [List.foldl_cons]
    rcases List.mem_cons.mp h with h1 | h1
    · by_cases hx : lexLt x b
      · rw [h1, if_pos hx]; simp
      · rw [h1, if_neg hx]; simp
    · simp [h1]

/-- No element of the seed-plus-list is strictly below the fold result. -/
lemma foldlMin_not_lt (xs : List (WithTop α × ℕ)) :
    ∀ b, ∀ c ∈ b :: xs,
      ¬ lexLt c (xs.foldl (fun best c => if lexLt c best then c else best) b) := by
  induction xs with
  | nil =>
    intro b c hc
    simp only [List.mem_singleton] at hc
    subst hc
    simpa using lexLt_irrefl c
  | cons x xs ih =>
    intro b c hc
    simp only [List.foldl_cons]
    have hseed : ∀ d ∈ [b, x], ¬ lexLt d (if lexLt x b then x else b) := by
      intro d hd
      rcases List.mem_cons.mp hd with rfl | hd
      · by_cases hx : lexLt x d
        · rw [if_pos hx]
          rw [not_lexLt_iff]
          rcases hx with h | ⟨h1, h2⟩
          · exact Or.inl h
          · exact Or.inr ⟨h1, le_of_lt h2⟩
        · rw [if_neg hx]
          exact lexLt_irrefl d
      · simp only [List.mem_singleton] at hd
        subst hd
        by_cases hx : lexLt d b
        · rw [if_pos hx]; exact lexLt_irrefl d
        · rw [if_neg hx]; exact hx
    rcases List.mem_cons.mp hc with rfl | h1
    · exact not_lexLt_trans
        (ih _ _ (List.mem_cons_self _ _))
        (hseed c (by simp))
    · rcases List.mem_cons.mp h1 with rfl | h2
      · exact not_lexLt_trans
          (ih _ _ (List.mem_cons_self _ _))
          (hseed c (by simp))
      · exact ih _ _ (List.mem_cons.mpr (Or.inr h2))

lemma pyMin_mem {l : List (WithTop α × ℕ)} (h : l ≠ []) : pyMin l ∈ l := by
  cases l with
  | nil => exact absurd rfl h
  | cons x xs => exact foldlMin_mem xs x

lemma pyMin_not_lt {l : List (WithTop α × ℕ)} {c : WithTop α × ℕ}
    (hc : c ∈ l) : ¬ lexLt c (pyMin l) := by
  cases l with
  | nil => cases hc
  | cons x xs => exact foldlMin_not_lt xs x c hc

/-- The selected match cost is the minimum cost among the candidates. -/
lemma pyMin_fst_le {l : List (WithTop α × ℕ)} {c : WithTop α × ℕ}
    (hc : c ∈ l) : (pyMin l).1 ≤ c.1 := by
  have h := not_lexLt_iff.mp (pyMin_not_lt hc)
  rcases h with h | ⟨h, _⟩
  · exact le_of_lt h
  · exact le_of_eq h

/-- Among candidates of minimal cost, the selected match length is the
smallest. -/
lemma pyMin_snd_le {l : List (WithTop α × ℕ)} {c : WithTop α × ℕ}
    (hc : c ∈ l) (hfst : c.1 = (pyMin l).1) : (pyMin l).2 ≤ c.2 := by
  have h := not_lexLt_iff.mp (pyMin_not_lt hc)
  rcases h with h | ⟨_, h2⟩
  · exact absurd (hfst ▸ h) (lt_irrefl _)
  · exact h2

lemma mem_candList {S : Splitter α} {text : List Char}
    {revCosts : List (WithTop α)} {i : ℕ} {c : WithTop α × ℕ} :
    c ∈ candList S text revCosts i ↔
      ∃ ml, ml < min revCosts.length S.maxLen ∧
        c = (revCosts.getD ml ⊤ +
              tokenCost S ((text.drop (i - ml - 1)).take (ml + 1)), ml + 1) := by
  unfold candList
  simp only [List.mem_map, List.mem_range]
  exact exists_congr fun ml => and_congr_right fun _ => eq_comm

lemma candList_length (S : Splitter α) (text : List Char)
    (revCosts : List (WithTop α)) (i : ℕ) :
    (candList S text revCosts i).length = min revCosts.length S.maxLen := by
  simp [candList]

lemma costs_length (S : Splitter α) (text : List Char) :
    ∀ i, (costs S text i).length = i + 1
  | 0 => rfl
  | i + 1 => by simp [costs, costs_length S text i]

lemma costs_getD (S : Splitter α) (text : List Char) :
    ∀ i j, j ≤ i → (costs S text i).getD (i - j) ⊤ = costF S text j := by
  intro i
  induction i with
  | zero =>
    intro j hj
    have hj0 : j = 0 := Nat.le_zero.mp hj
    subst hj0
    rfl
  | succ i ih =>
    intro j hj
    rcases Nat.eq_or_lt_of_le hj with heq | hlt
    · subst heq
      simp only [Nat.sub_self, costs, costF, List.getD_cons_zero,
        List.headD_cons]
    · have hj' : j ≤ i := Nat.lt_succ_iff.mp hlt
      rw [show i + 1 - j = (i - j) + 1 from by omega]
      simp only [costs, List.getD_cons_succ]
      exact ih j hj'

lemma costF_zero (S : Splitter α) (text : List Char) :
    costF S text 0 = 0 := rfl

/-- The forward pass stores `best_match(i)[0]` at index `i`: the value
recomputed during backtracking is definitionally the stored one. -/
lemma costF_succ (S : Splitter α) (text : List Char) (i : ℕ) :
    costF S text (i + 1) = (bestMatch S text (i + 1)).1 := rfl

lemma bestMatch_mem {S : Splitter α} (hml : 1 ≤ S.maxLen)
    (text : List Char) (i : ℕ) :
    bestMatch S text (i + 1) ∈ candList S text (costs S text i) (i + 1) := by
  have hne : candList S text (costs S text i) (i + 1) ≠ [] := by
    intro h
    have hlen := candList_length S text (costs S text i) (i + 1)
    rw [h, costs_length] at hlen
    simp only [List.length_nil] at hlen
    omega
  exact pyMin_mem hne

/-- Structure of the selected match at position `i + 1`: some candidate
length `ml + 1 ≤ min (i+1) maxLen`, paired with the cost of the remaining
prefix plus the token cost of the matched slice. -/
lemma bestMatch_spec {S : Splitter α} (hml : 1 ≤ S.maxLen)
    (text : List Char) (i : ℕ) :
    ∃ ml, ml < min (i + 1) S.maxLen ∧
      bestMatch S text (i + 1) =
        (costF S text (i - ml) +
          tokenCost S ((text.drop (i - ml)).take (ml + 1)), ml + 1) := by
  have hmem := bestMatch_mem hml text i
  rw [mem_candList] at hmem
  obtain ⟨ml, hlt, heq⟩ := hmem
  rw [costs_length] at hlt
  have hmli : ml ≤ i := by omega
  have h1 : (costs S text i).getD ml ⊤ = costF S text (i - ml) := by
    have h := costs_getD S text i (i - ml) (Nat.sub_le _ _)
    rwa [show i - (i - ml) = ml from by omega] at h
  refine ⟨ml, hlt, ?_⟩
  rw [heq, h1, show i + 1 - ml - 1 = i - ml from by omega]

lemma totalCost_nil (S : Splitter α) : totalCost S [] = 0 := rfl

lemma totalCost_cons (S : Splitter α) (t : List Char)
    (rest : List (List Char)) :
    totalCost S (t :: rest) = tokenCost S t + totalCost S rest := by
  simp [totalCost]

lemma totalCost_append_singleton (S : Splitter α) (Q : List (List Char))
    (t : List Char) :
    totalCost S (Q ++ [t]) = totalCost S Q + tokenCost S t := by
  simp [totalCost]

/-- One unfolding of the backtracking loop at a positive position. -/
lemma backtrack_succ (S : Splitter α) (text : List Char) (fuel i : ℕ) :
    backtrack S text (fuel + 1) (i + 1) =
      ((text.drop (i + 1 - (bestMatch S text (i + 1)).2)).take
          (bestMatch S text (i + 1)).2)
        :: backtrack S text fuel (i + 1 - (bestMatch S text (i + 1)).2) := rfl

/-- Concatenating the backtracked tokens (in forward order) yields exactly
the first `i` characters, provided the fuel covers the position. -/
lemma backtrack_flatten {S : Splitter α} {text : List Char}
    (hml : 1 ≤ S.maxLen) :
    ∀ fuel i, i ≤ fuel → i ≤ text.length →
      (backtrack S text fuel i).reverse.flatten = text.take i := by
  intro fuel
  induction fuel with
  | zero =>
    intro i hi _
    have hi0 : i = 0 := Nat.le_zero.mp hi
    subst hi0
    simp [backtrack]
  | succ fuel ih =>
    intro i hi hlen
    cases i with
    | zero => simp [backtrack]
    | succ j =>
      obtain ⟨ml, hlt, heq⟩ := bestMatch_spec hml text j
      have hm2 : (bestMatch S text (j + 1)).2 = ml + 1 := by rw [heq]
      rw [backtrack_succ, hm2, show j + 1 - (ml + 1) = j - ml from by omega]
      have hih : (backtrack S text fuel (j - ml)).reverse.flatten =
          text.take (j - ml) :=
        ih (j - ml) (by omega) (by omega)
      rw [List.reverse_cons, List.flatten_append, hih]
      simp only [List.flatten_cons, List.flatten_nil, List.append_nil]
      rw [← List.take_add]
      congr 1
      omega

/-- The total cost of the backtracked tokens equals the DP value at the
starting position. -/
lemma backtrack_totalCost {S : Splitter α} (text : List Char)
    (hml : 1 ≤ S.maxLen) :
    ∀ fuel i, i ≤ fuel → i ≤ text.length →
      totalCost S (backtrack S text fuel i) = costF S text i := by
  intro fuel
  induction fuel with
  | zero =>
    intro i hi _
    have hi0 : i = 0 := Nat.le_zero.mp hi
    subst hi0
    rfl
  | succ fuel ih =>
    intro i hi hlen
    cases i with
    | zero => rfl
    | succ j =>
      obtain ⟨ml, hlt, heq⟩ := bestMatch_spec hml text j
      have hm2 : (bestMatch S text (j + 1)).2 = ml + 1 := by rw [heq]
      rw [backtrack_succ, hm2, show j + 1 - (ml + 1) = j - ml from by omega,
        totalCost_cons]
      rw [ih (j - ml) (by omega) (by omega)]
      rw [costF_succ, heq]
      exact add_comm _ _

/-- Every token produced by the backtracking loop is a non-empty slice of
length at most `maxLen`. -/
lemma backtrack_tokens {S : Splitter α} {text : List Char}
    (hml : 1 ≤ S.maxLen) :
    ∀ fuel i, i ≤ text.length →
      ∀ t ∈ backtrack S text fuel i, t ≠ [] ∧ t.length ≤ S.maxLen := by
  intro fuel
  induction fuel with
  | zero =>
    intro i _ t ht
    cases i with
    | zero => cases ht
    | succ j => cases ht
  | succ fuel ih =>
    intro i hlen t ht
    cases i with
    | zero => cases ht
    | succ j =>
      obtain ⟨ml, hlt, heq⟩ := bestMatch_spec hml text j
      have hm2 : (bestMatch S text (j + 1)).2 = ml + 1 := by rw [heq]
      rw [backtrack_succ, hm2, show j + 1 - (ml + 1) = j - ml from by omega]
        at ht
      rcases List.mem_cons.mp ht with htok | hrest
      · have hlen2 : t.length = ml + 1 := by
          rw [htok]
          simp only [List.length_take, List.length_drop]
          omega
        refine ⟨?_, by omega⟩
        intro hnil
        rw [hnil] at hlen2
        simp at hlen2
      · exact ih (j - ml) (by omega) t hrest

/-- Lower bound: the DP value at `i` is at most the total cost of any
partition of the first `i` characters into non-empty tokens, provided
every word carrying a finite cost has length at most `maxLen` (as holds
for the constructed cost model, where `maxLen` is the longest dictionary
word). -/
lemma costF_le_partition {S : Splitter α} {text : List Char}
    (hwc : ∀ k c, S.wordCost k = some c → k.length ≤ S.maxLen) :
    ∀ (P : List (List Char)) (i : ℕ), i ≤ text.length →
      (∀ t ∈ P, t ≠ []) → P.flatten = text.take i →
      costF S text i ≤ totalCost S P := by
  intro P
  induction P using List.reverseRecOn with
  | nil =>
    intro i hi _ hflat
    have htake : text.take i = [] := by
      rw [← hflat]
      rfl
    have hi0 : i = 0 := by
      have hlen := congrArg List.length htake
      rw [List.length_take] at hlen
      simp only [List.length_nil] at hlen
      omega
    subst hi0
    simp [costF_zero, totalCost_nil]
  | append_singleton Q t ih =>
    intro i hi hne hflat
    have ht : t ≠ [] := hne t (by simp)
    have hl1 : 1 ≤ t.length := List.length_pos.mpr ht
    rw [List.flatten_append, List.flatten_cons, List.flatten_nil,
      List.append_nil] at hflat
    have htakelen : (text.take i).length = i := by
      rw [List.length_take]
      omega
    have hflatlen : Q.flatten.length + t.length = i := by
      have := congrArg List.length hflat
      rw [List.length_append, htakelen] at this
      exact this
    have hli : t.length ≤ i := by omega
    have hQlen : Q.flatten.length = i - t.length := by omega
    have hQ : Q.flatten = text.take (i - t.length) := by
      have h1 : (Q.flatten ++ t).take Q.flatten.length = Q.flatten :=
        List.take_left _ _
      rw [hflat, hQlen] at h1
      rw [List.take_take,
        show min (i - t.length) i = i - t.length from by omega] at h1
      exact h1.symm
    have htok : t = (text.drop (i - t.length)).take t.length := by
      have h2 : (Q.flatten ++ t).drop Q.flatten.length = t :=
        List.drop_left _ _
      rw [hflat, hQlen] at h2
      rw [List.drop_take,
        show i - (i - t.length) = t.length from by omega] at h2
      exact h2.symm
    by_cases hlen : t.length ≤ S.maxLen
    · obtain ⟨j, rfl⟩ : ∃ j, i = j + 1 := ⟨i - 1, by omega⟩
      have hcand :
          (costF S text (j + 1 - t.length) +
            tokenCost S ((text.drop (j + 1 - t.length)).take t.length),
            t.length) ∈ candList S text (costs S text j) (j + 1) := by
        rw [mem_candList]
        refine ⟨t.length - 1, ?_, ?_⟩
        · rw [costs_length]
          omega
        · have h1 : (costs S text j).getD (t.length - 1) ⊤ =
              costF S text (j + 1 - t.length) := by
            have h := costs_getD S text j (j + 1 - t.length) (by omega)
            rwa [show j - (j + 1 - t.length) = t.length - 1 from by omega]
              at h
          rw [h1, show j + 1 - (t.length - 1) - 1 = j + 1 - t.length from
            by omega, show t.length - 1 + 1 = t.length from by omega]
      have hle1 : costF S text (j + 1) ≤
          costF S text (j + 1 - t.length) + tokenCost S t := by
        have h := pyMin_fst_le hcand
        rw [← htok] at h
        rw [costF_succ]
        exact h
      have hle2 : costF S text (j + 1 - t.length) ≤ totalCost S Q :=
        ih (j + 1 - t.length) (by omega)
          (fun u hu => hne u (List.mem_append.mpr (Or.inl hu))) hQ
      calc costF S text (j + 1) ≤
            costF S text (j + 1 - t.length) + tokenCost S t := hle1
        _ ≤ totalCost S Q + tokenCost S t := add_le_add_right hle2 _
        _ = totalCost S (Q ++ [t]) :=
            (totalCost_append_singleton S Q t).symm
    · have htop : tokenCost S t = ⊤ := by
        unfold tokenCost
        cases hcase : S.wordCost (t.map Char.toLower) with
        | none => rfl
        | some c =>
          have hle := hwc _ _ hcase
          rw [List.length_map] at hle
          omega
      rw [totalCost_append_singleton, htop, add_top]
      exact le_top

lemma dictRankAux_not_mem (w : String) :
    ∀ (l : List String) (k : ℕ), w ∉ l → dictRankAux w l k = none := by
  intro l
  induction l with
  | nil => intro k _; rfl
  | cons x xs ih =>
    intro k hw
    have hx : ¬ x = w := fun h => hw (h ▸ List.mem_cons_self _ _)
    have hxs : w ∉ xs := fun h => hw (List.mem_cons.mpr (Or.inr h))
    simp [dictRankAux, ih (k + 1) hxs, hx]

/-- In a duplicate-free list the dict rank of the word at position `i` is
exactly `i` (offset by the starting index `k`). -/
lemma dictRankAux_get :
    ∀ (l : List String), l.Nodup →
      ∀ (i : ℕ) (h : i < l.length) (k : ℕ),
        dictRankAux (l.get ⟨i, h⟩) l k = some (k + i) := by
  intro l
  induction l with
  | nil => intro _ i h; simp at h
  | cons x xs ih =>
    intro hnd i h k
    cases i with
    | zero =>
      have hx : x ∉ xs := (List.nodup_cons.mp hnd).1
      simp [dictRankAux, dictRankAux_not_mem x xs (k + 1) hx]
    | succ i =>
      have h' : i < xs.length := by
        simp only [List.length_cons] at h
        omega
      have hrec := ih (List.nodup_cons.mp hnd).2 i h' (k + 1)
      simp only [List.get_cons_succ]
      simp only [dictRankAux, hrec]
      congr 1
      omega

end WASpec

/-! ## Claim theorems -/

namespace WASpec

/-- C1: for every text, the token sequence returned by `split` is
total-cost-minimizing: no partition of the text into (non-empty)
substrings has a strictly lower summed token cost.  The hypotheses hold
for every cost model built by the constructor: `1 ≤ maxLen` (the
dictionary has a non-empty word; otherwise Python raises `ValueError`
inside `min([])` and returns nothing), and every word carrying a finite
cost has length at most `maxLen` (since `max_len` is the longest
dictionary word and lower-casing preserves length). -/
theorem C1_split_minimal {α : Type} [LinearOrderedAddCommMonoid α]
    (S : Splitter α) (text : List Char) (hml : 1 ≤ S.maxLen)
    (hwc : ∀ k c, S.wordCost k = some c → k.length ≤ S.maxLen)
    (P : List (List Char)) (hP : IsPartition P text) :
    totalCost S (split S text) ≤ totalCost S P := by
  have hsplit : totalCost S (split S text) = costF S text text.length := by
    have h := backtrack_totalCost text hml text.length
      text.length le_rfl le_rfl
    unfold split
    unfold totalCost at h ⊢
    rw [List.map_reverse, List.sum_reverse]
    exact h
  rw [hsplit]
  exact costF_le_partition hwc P text.length le_rfl hP.1
    (by rw [hP.2, List.take_length])

/-- Witness for C1 at a concrete cost model, text and partition. -/
theorem C1_split_minimal_witness :
    totalCost tieSplitter (split tieSplitter ['a']) ≤
      totalCost tieSplitter [['a']] := by
  refine C1_split_minimal tieSplitter ['a'] (by decide) ?_ [['a']]
    ⟨by decide, by decide⟩
  intro k c h
  simp only [tieSplitter] at h
  split_ifs at h with h1 h2 h3
  · subst h1; decide
  · subst h2; decide
  · subst h3; decide

/-- C2: concatenating, in order, the tokens returned by `split` reproduces
the text exactly.  `1 ≤ maxLen` states that the dictionary contains a
non-empty word; without it Python's `min([])` raises inside `best_match`
and no token sequence is returned at all. -/
theorem C2_split_flatten {α : Type} [LinearOrderedAddCommMonoid α]
    (S : Splitter α) (text : List Char) (hml : 1 ≤ S.maxLen) :
    (split S text).flatten = text := by
  unfold split
  rw [backtrack_flatten hml text.length text.length le_rfl le_rfl,
    List.take_length]

/-- Witness for C2 at a concrete cost model and text. -/
theorem C2_split_flatten_witness :
    (split tieSplitter ['a', 'b', 'a']).flatten = ['a', 'b', 'a'] :=
  C2_split_flatten tieSplitter ['a', 'b', 'a'] (by decide)

/-- C3 counterexample: at position 2 of text `"ab"` under `tieSplitter`,
the candidates `(cost 2, length 1)` and `(cost 2, length 2)` tie on cost,
yet `best_match` (Python `min` over `(cost, length)` tuples) selects
length 1 — the SHORTEST matching substring, not the longest — and `split`
accordingly returns `["a", "b"]` rather than `["ab"]`. -/
theorem C3_counterexample :
    bestMatch tieSplitter ['a', 'b'] 2 = ((2 : WithTop ℕ), 1) ∧
      ((2 : WithTop ℕ), 2) ∈
        candList tieSplitter ['a', 'b'] (costs tieSplitter ['a', 'b'] 1) 2 ∧
      split tieSplitter ['a', 'b'] = [['a'], ['b']] :=
  ⟨by decide, by decide, by decide⟩

/-- C3 (amended): whenever multiple candidate split points yield equal
total cost, the implementation deterministically prefers the SHORTEST
matching substring (Python `min` over `(cost, length)` tuples compares
the length ascending on a cost tie). -/
theorem C3_tie_prefers_shortest {α : Type} [LinearOrderedAddCommMonoid α]
    (S : Splitter α) (text : List Char) (i : ℕ) (c : WithTop α × ℕ)
    (hc : c ∈ candList S text (costs S text (i - 1)) i)
    (hfst : c.1 = (bestMatch S text i).1) :
    (bestMatch S text i).2 ≤ c.2 :=
  pyMin_snd_le hc hfst

/-- Witness for the amended C3 at the concrete tie. -/
theorem C3_tie_prefers_shortest_witness :
    (bestMatch tieSplitter ['a', 'b'] 2).2 ≤ ((2 : WithTop ℕ), 2).2 :=
  C3_tie_prefers_shortest tieSplitter ['a', 'b'] 2 ((2 : WithTop ℕ), 2)
    (by decide) (by decide)

/-- C8: every token returned by `split` is non-empty and no longer than
`maxLen`, the length of the longest dictionary word. -/
theorem C8_tokens_bounded {α : Type} [LinearOrderedAddCommMonoid α]
    (S : Splitter α) (text : List Char) (hml : 1 ≤ S.maxLen) :
    ∀ t ∈ split S text, t ≠ [] ∧ t.length ≤ S.maxLen := by
  intro t ht
  unfold split at ht
  rw [List.mem_reverse] at ht
  exact backtrack_tokens hml text.length text.length le_rfl t ht

/-- Witness for C8 at a concrete cost model, text and token. -/
theorem C8_tokens_bounded_witness :
    ['a'] ≠ ([] : List Char) ∧ (['a'] : List Char).length ≤
      tieSplitter.maxLen :=
  C8_tokens_bounded tieSplitter ['a', 'b'] (by decide) ['a'] (by decide)

/-- C9: the assertion `assert match_cost == cost[i]` in the backtracking
pass never fails: the `best_match` cost recomputed at any positive
position equals the value the forward pass recorded there. -/
theorem C9_assertion_holds {α : Type} [LinearOrderedAddCommMonoid α]
    (S : Splitter α) (text : List Char) (i : ℕ) (hi : 1 ≤ i) :
    (bestMatch S text i).1 = costF S text i := by
  obtain ⟨j, rfl⟩ : ∃ j, i = j + 1 := ⟨i - 1, by omega⟩
  exact (costF_succ S text j).symm

/-- Witness for C9 at a concrete cost model, text and position. -/
theorem C9_assertion_holds_witness :
    (bestMatch tieSplitter ['a', 'b'] 2).1 = costF tieSplitter ['a', 'b'] 2 :=
  C9_assertion_holds tieSplitter ['a', 'b'] 2 (by decide)

/-- C6 counterexample: `["a"]` is a non-empty list whose elements are all
strings, yet construction does not succeed — `math.log(len(words))` is `0`
for a single-element list, so `log((number + 1) * 0) = log 0` raises
`ValueError: math domain error` while building the cost dict. -/
theorem C6_counterexample :
    ([PyObj.str "a"] ≠ [] ∧ ∀ x ∈ [PyObj.str "a"], (asString x).isSome) ∧
      initTextSplitter (some [PyObj.str "a"]) =
        Except.error InitError.mathDomain :=
  ⟨by decide, rfl⟩

/-- C6 (amended): construction raises a typed error if and only if the
word list is empty, absent, contains a non-string element, OR is a
single-element list (math domain error from `log 0`); it succeeds exactly
on lists of length at least 2 whose elements are all strings. -/
theorem C6_init_ok_iff (input : Option (List PyObj)) :
    (∃ r, initTextSplitter input = Except.ok r) ↔
      ∃ l, input = some l ∧ 2 ≤ l.length ∧
        ∀ x ∈ l, (asString x).isSome := by
  cases input with
  | none =>
    simp [initTextSplitter]
  | some ws =>
    constructor
    · rintro ⟨r, hr⟩
      refine ⟨ws, rfl, ?_, ?_⟩
      · simp only [initTextSplitter] at hr
        split_ifs at hr with h1 h2 h3
        have hlen : ws.length ≠ 0 := fun h => h1 (List.length_eq_zero.mp h)
        omega
      · simp only [initTextSplitter] at hr
        split_ifs at hr with h1 h2 h3
        simp only [List.any_eq_true, decide_eq_true_eq] at h2
        push_neg at h2
        intro x hx
        exact Option.isSome_iff_ne_none.mpr (h2 x hx)
    · rintro ⟨l, heq, hlen, hall⟩
      have hlw : l = ws := (Option.some.inj heq).symm
      subst hlw
      have h1 : ¬ l = [] := by
        intro h
        rw [h] at hlen
        simp at hlen
      have h2 : ¬ l.any (fun w => asString w = none) = true := by
        simp only [List.any_eq_true, decide_eq_true_eq]
        push_neg
        intro x hx
        exact Option.isSome_iff_ne_none.mp (hall x hx)
      have h3 : ¬ l.length = 1 := by omega
      refine ⟨(l.filterMap asString,
        ((l.filterMap asString).map String.length).foldl max 0), ?_⟩
      simp only [initTextSplitter]
      rw [if_neg h1, if_neg h2, if_neg h3]

/-- Witness for the amended C6: a two-element all-string list is accepted. -/
theorem C6_init_ok_iff_witness :
    ∃ r, initTextSplitter (some [PyObj.str "a", PyObj.str "b"]) =
      Except.ok r :=
  (C6_init_ok_iff (some [PyObj.str "a", PyObj.str "b"])).mpr
    ⟨[PyObj.str "a", PyObj.str "b"], rfl, by decide, by decide⟩

/-- C7 counterexample: the valid input list `["a", "b", "a"]` (non-empty,
all strings, length ≥ 2, accepted by the constructor) stores for the word
at position 0 the cost of rank 2, not rank 0 — the dict comprehension lets
the later duplicate overwrite the earlier entry — and those two costs
really differ, since `log(1 · log 3) < log(3 · log 3)`. -/
theorem C7_counterexample :
    word_cost ["a", "b", "a"] "a" = some (zipfCost 3 2) ∧
      zipfCost 3 2 ≠ zipfCost 3 0 := by
  refine ⟨rfl, ?_⟩
  have hlog3 : (0 : ℝ) < Real.log 3 := Real.log_pos (by norm_num)
  apply ne_of_gt
  unfold zipfCost
  apply Real.log_lt_log
  · push_cast
    nlinarith
  · push_cast
    nlinarith

/-- C7 (amended): for every constructor-accepted frequency list with
pairwise-distinct words (`N ≥ 2`, no duplicates — a duplicate is
overwritten by its last occurrence), the stored cost of the word at
position `i` is `log((i + 1) * log N)`, and these costs are monotonically
non-decreasing in the rank. -/
theorem C7_rank_cost_monotone (ws : List String) (hN : 2 ≤ ws.length)
    (hnd : ws.Nodup) :
    (∀ i (h : i < ws.length),
        word_cost ws (ws.get ⟨i, h⟩) = some (zipfCost ws.length i)) ∧
      ∀ i j : ℕ, i ≤ j → zipfCost ws.length i ≤ zipfCost ws.length j := by
  constructor
  · intro i h
    unfold word_cost dictRank
    rw [dictRankAux_get ws hnd i h 0]
    simp
  · intro i j hij
    have hlogN : (0 : ℝ) < Real.log ws.length := by
      apply Real.log_pos
      exact_mod_cast by omega
    unfold zipfCost
    apply Real.log_le_log
    · positivity
    · have hcast : (i : ℝ) + 1 ≤ (j : ℝ) + 1 := by
        have : (i : ℝ) ≤ (j : ℝ) := Nat.cast_le.mpr hij
        linarith
      exact mul_le_mul_of_nonneg_right hcast (le_of_lt hlogN)

/-- Witness for the amended C7 at the concrete list `["a", "b"]`. -/
theorem C7_rank_cost_monotone_witness :
    word_cost ["a", "b"] "a" = some (zipfCost 2 0) ∧
      zipfCost 2 0 ≤ zipfCost 2 1 :=
  ⟨(C7_rank_cost_monotone ["a", "b"] (by decide) (by decide)).1 0
      (by decide),
    (C7_rank_cost_monotone ["a", "b"] (by decide) (by decide)).2 0 1
      (by decide)⟩

/-- C4, evaluated at the failing input: under `bugAnalyzer` the cleaned
word `"hello"` splits into a single part, the similar-word loop collects
`["hello", "help"]`, yet `_get_correct_words` returns only `{"hello"}` —
the rebinding `arr = sorted(evaluated_words)[:number_of_corrected_words]`
discards every collected match, so `"help"` is lost. -/
theorem C4_similar_words_discarded :
    collectedSimilar bugAnalyzer
        (bugAnalyzer.splitWord (cleanedWord bugAnalyzer "hello" none)) =
      ["hello", "help"] ∧
    getCorrectWords bugAnalyzer "hello" none = {"hello"} :=
  ⟨by decide, by decide⟩

/-- C5 counterexample: when the cleaner returns the empty string (as
`_get_clear_word` does on input `""`), the guard `if word:` skips the
fallback append, and the returned set does not contain the cleaned word. -/
theorem C5_counterexample :
    cleanedWord emptyClearAnalyzer "x" none = "" ∧
      cleanedWord emptyClearAnalyzer "x" none ∉
        getCorrectWords emptyClearAnalyzer "x" none :=
  ⟨rfl, by decide⟩

/-- C5 (amended): the set returned by `_get_correct_words` contains the
cleaned (and repeat-collapsed) word whenever that word is non-empty, even
when no approximate matches are found; when the cleaned word is the empty
string the `if word:` guard omits it. -/
theorem C5_cleaned_mem (A : Analyzer) (word : String) (cw : Option String)
    (hne : cleanedWord A word cw ≠ "") :
    cleanedWord A word cw ∈ getCorrectWords A word cw := by
  simp only [getCorrectWords]
  by_cases h : (A.splitWord (cleanedWord A word cw)).length < 2
  · rw [if_pos h]
    simp [hne]
  · rw [if_neg h, if_neg hne]
    simp

/-- Witness for the amended C5 at a concrete analyzer and word. -/
theorem C5_cleaned_mem_witness :
    cleanedWord bugAnalyzer "hello" none ≠ "" ∧
      cleanedWord bugAnalyzer "hello" none ∈
        getCorrectWords bugAnalyzer "hello" none :=
  ⟨by decide, C5_cleaned_mem bugAnalyzer "hello" none (by decide)⟩

/-- C10: the set returned by `_get_correct_words` never has more than
`number_of_corrected_words + 1` elements: the sorted candidate list is
truncated to `number_of_corrected_words` entries and at most one fallback
word is appended before deduplication. -/
theorem C10_card_le (A : Analyzer) (word : String) (cw : Option String) :
    (getCorrectWords A word cw).card ≤ A.numberOfCorrectedWords + 1 := by
  simp only [getCorrectWords]
  by_cases h : (A.splitWord (cleanedWord A word cw)).length < 2
  · rw [if_pos h]
    refine le_trans (List.toFinset_card_le _) ?_
    rw [List.length_append, List.length_map]
    have h1 : ((pySort ([] : List (ℚ × String))).take
        A.numberOfCorrectedWords).length = 0 := by
      simp [pySort]
    rw [h1]
    by_cases hw : cleanedWord A word cw = ""
    · rw [if_pos hw]
      simp
    · rw [if_neg hw]
      simp
  · rw [if_neg h]
    refine le_trans (List.toFinset_card_le _) ?_
    rw [List.length_map]
    have hk := List.length_take_le A.numberOfCorrectedWords
      (pySort (evaluatedWordsFor A (A.splitWord (cleanedWord A word cw))))
    by_cases hw : cleanedWord A word cw = ""
    · rw [if_pos hw]
      omega
    · rw [if_neg hw, List.length_append]
      simp only [List.length_singleton]
      omega

/-- Witness for C10 at a concrete analyzer and word. -/
theorem C10_card_le_witness :
    (getCorrectWords bugAnalyzer "hello" none).card ≤
      bugAnalyzer.numberOfCorrectedWords + 1 :=
  C10_card_le bugAnalyzer "hello" none

end WASpec
